import Mathlib

/-!
Verification development for the ImageCompressor repository.

The repository has two Python pipelines:
- withSource/main.py: walks a source directory tree, re-encodes image files
  (compress_image_file) and copies all other files, mirroring the tree under
  an output directory.
- withLinks/main.py: extracts category -> URL lists from a DOCX document text
  (read_docx_data) and downloads/re-encodes each URL (download_and_compress_image).

The embedding below is a shallow model of those functions.  External library
behaviour (PIL decoding and encoding, the network) is modelled by explicit
function parameters: a Bool saying whether PIL.Image.open succeeds, and an
encoder function mapping the save call (format, quality, optimize) to either
the encoded file or an error that may leave a partially written file behind.
File contents are lists of bytes (Nat), and a file carries an mtime so that
metadata-preserving copies (shutil.copy2) are distinguishable from rewrites.
-/

/-- A file on disk: its byte content plus a modification time.  shutil.copy2
copies both; a fresh encode produces a file with its own mtime. -/
structure File where
  bytes : List Nat
  mtime : Nat
deriving DecidableEq

/-- Arguments of a PIL img.save call as made by the repository: the resolved
format string, the optional quality keyword and the optional optimize flag. -/
structure EncCall where
  fmt : String
  quality : Option Nat
  optimize : Bool
deriving DecidableEq

/-- Outcome of one compress_image_file run, mirroring the branches of the
Python function: the two success branches, and the three distinct failure
points caught by its except block (Image.open failing, the ValueError for an
unsupported extension, and img.save raising). -/
inductive Outcome
  | compressedKept
  | originalKept
  | failedDecode
  | failedUnsupported
  | failedEncode
deriving DecidableEq

/-- Result state of one compress_image_file call: the file at the destination
path (if one was written), the file left at the temporary path
(output_path + ".tmp"), the img.save call that was made (if any), and the
outcome. -/
structure CompressOutput where
  dest : Option File
  tmp : Option File
  encCall : Option EncCall
  outcome : Outcome
deriving DecidableEq

/-- Lowercasing of a string, as Python str.lower on the ASCII strings the
program manipulates. -/
def strLower (s : String) : String := ⟨s.data.map Char.toLower⟩

/-- Uppercasing of a string, as Python str.upper on the ASCII strings the
program manipulates. -/
def strUpper (s : String) : String := ⟨s.data.map Char.toUpper⟩

/-- Index of the last occurrence of a character in a list, if any. -/
def lastIdx (c : Char) : List Char → Option Nat
  | [] => none
  | x :: xs =>
    match lastIdx c xs with
    | some i => some (i + 1)
    | none => if x = c then some 0 else none

/-- Condition under which CPython os.path.splitext splits at the last dot
(index d): the dot lies after the last path separator, and at least one
character of the final component before the dot is not itself a dot. -/
def extOK (p : List Char) (d : Nat) : Bool :=
  let sep : Nat :=
    match lastIdx '/' p with
    | none => 0
    | some i => i + 1
  decide (sep ≤ d) && ((p.drop sep).take (d - sep)).any (fun c => !(c == '.'))

/-- os.path.splitext on the character list of a path, following CPython:
the extension starts at the last dot that lies after the last path separator,
provided at least one earlier character of the final component is not a dot. -/
def splitextL (p : List Char) : List Char × List Char :=
  match lastIdx '.' p with
  | none => (p, [])
  | some d => if extOK p d then (p.take d, p.drop d) else (p, [])

/-- os.path.splitext on strings. -/
def splitext (s : String) : String × String :=
  let q := splitextL s.data
  (⟨q.1⟩, ⟨q.2⟩)

/-- Association-list lookup with decidable key equality (Python dict read). -/
def alookup {α β : Type} [DecidableEq α] (k : α) : List (α × β) → Option β
  | [] => none
  | (a, b) :: xs => if a = k then some b else alookup k xs

/-- Association-list write with Python dict semantics: an existing key keeps
its position and gets the new value, a new key is appended at the end. -/
def upsert {α β : Type} [DecidableEq α] : List (α × β) → α → β → List (α × β)
  | [], k, v => [(k, v)]
  | (a, b) :: xs, k, v =>
    if a = k then (k, v) :: xs else (a, b) :: upsert xs k v

/-- Base quality setting of withSource/main.py (QUALITY = 85). -/
def QUALITY : Nat := 85

/-- Additional quality drop for large files in withSource/main.py
(AGGRESSIVE_DROP = 20). -/
def AGGRESSIVE_DROP : Nat := 20

/-- THRESHOLD in withSource/main.py is 1.2 * 1024 * 1024 bytes, a Python
float equal to 1258291.2.  A Nat byte size strictly exceeds it exactly when
ten times the size exceeds 12582912. -/
def exceedsTHRESHOLD (size : Nat) : Bool := 12582912 < 10 * size

/-- IMAGE_EXTENSIONS of withSource/main.py. -/
def IMAGE_EXTENSIONS : List String :=
  [".jpg", ".jpeg", ".png", ".bmp", ".gif", ".tiff", ".webp"]

/-- EXT_TO_FORMAT of withSource/main.py. -/
def EXT_TO_FORMAT : List (String × String) :=
  [(".jpg", "JPEG"), (".jpeg", "JPEG"), (".png", "PNG"), (".bmp", "BMP"),
   (".gif", "GIF"), (".tiff", "TIFF"), (".webp", "WEBP")]

/-- The quality chosen by compress_image_file for lossy formats: the base
QUALITY, or max 1 (QUALITY - AGGRESSIVE_DROP) when the original file size
exceeds THRESHOLD. -/
def qualityFor (origSize : Nat) : Nat :=
  if exceedsTHRESHOLD origSize then max 1 (QUALITY - AGGRESSIVE_DROP)
  else QUALITY

/-- The img.save keyword arguments prepared by compress_image_file for a
resolved format: quality for WEBP and JPEG, optimize for PNG, none otherwise. -/
def saveCall (fmt : String) (origSize : Nat) : EncCall :=
  if fmt = "WEBP" ∨ fmt = "JPEG" then ⟨fmt, some (qualityFor origSize), false⟩
  else if fmt = "PNG" then ⟨fmt, none, true⟩
  else ⟨fmt, none, false⟩

/-- Output-format resolution of compress_image_file: the configured
TARGET_FORMAT uppercased when set, otherwise EXT_TO_FORMAT applied to the
lowercased extension of the input path (none models the ValueError raised for
an unsupported extension). -/
def resolveFmt (targetFormat : Option String) (inputPath : String) : Option String :=
  match targetFormat with
  | some t => some (strUpper t)
  | none => alookup (strLower (splitext inputPath).2) EXT_TO_FORMAT

/-- Model of compress_image_file from withSource/main.py.  decodeOk models
whether PIL.Image.open(input_path) succeeds; enc models img.save at the
temporary path, returning the written temp file, or an error carrying the
partially written temp file (if the save created one before raising).  src is
the file at input_path, so os.path.getsize(input_path) is src.bytes.length.
On a successful save: if the temp file is strictly smaller than the original,
os.replace moves it onto the destination; otherwise shutil.copy2 copies the
original to the destination and os.remove deletes the temp file.  Exceptions
are caught by the except block, which only logs (no cleanup). -/
def compress_image_file (targetFormat : Option String) (decodeOk : Bool)
    (enc : EncCall → Except (Option File) File)
    (inputPath : String) (src : File) : CompressOutput :=
  if !decodeOk then ⟨none, none, none, .failedDecode⟩
  else
    match resolveFmt targetFormat inputPath with
    | none => ⟨none, none, none, .failedUnsupported⟩
    | some fmt =>
      let origSize := src.bytes.length
      let call := saveCall fmt origSize
      match enc call with
      | .error leftover => ⟨none, leftover, some call, .failedEncode⟩
      | .ok tmpFile =>
        if tmpFile.bytes.length < origSize then
          ⟨some tmpFile, none, some call, .compressedKept⟩
        else
          ⟨some src, none, some call, .originalKept⟩

/-- Result state of one download_and_compress_image call: the file at
save_path (if anything was written there), the img.save call made, and
whether the call completed without an exception. -/
structure DLOutput where
  saved : Option File
  encCall : Option EncCall
  ok : Bool
deriving DecidableEq

/-- Model of download_and_compress_image from withLinks/main.py.  downloaded
is the fetched byte buffer as a file (its length is the downloaded size);
decodeOk models PIL.Image.open on the buffer; enc models img.save, writing
directly to save_path (there is no temporary file and no size comparison in
this pipeline): quality 95 for "webp", optimize for "png", and a ValueError
for any other TARGET_FORMAT.  A save error may leave a partial file at
save_path. -/
def download_and_compress_image (targetFormat : String) (decodeOk : Bool)
    (enc : EncCall → Except (Option File) File)
    (_downloaded : File) : DLOutput :=
  if !decodeOk then ⟨none, none, false⟩
  else if strLower targetFormat = "webp" then
    match enc ⟨"WEBP", some 95, false⟩ with
    | .ok f => ⟨some f, some ⟨"WEBP", some 95, false⟩, true⟩
    | .error leftover => ⟨leftover, some ⟨"WEBP", some 95, false⟩, false⟩
  else if strLower targetFormat = "png" then
    match enc ⟨"PNG", none, true⟩ with
    | .ok f => ⟨some f, some ⟨"PNG", none, true⟩, true⟩
    | .error leftover => ⟨leftover, some ⟨"PNG", none, true⟩, false⟩
  else ⟨none, none, false⟩

/-- Helper: every extension in IMAGE_EXTENSIONS has an EXT_TO_FORMAT entry. -/
lemma image_ext_has_format :
    ∀ s ∈ IMAGE_EXTENSIONS, (alookup s EXT_TO_FORMAT).isSome = true := by
  decide

/-- Helper: for a path with a recognized image extension, format resolution
succeeds for every TARGET_FORMAT setting. -/
lemma resolveFmt_isSome (targetFormat : Option String) (p : String)
    (h : strLower (splitext p).2 ∈ IMAGE_EXTENSIONS) :
    ∃ fmt, resolveFmt targetFormat p = some fmt := by
  cases targetFormat with
  | some t => exact ⟨strUpper t, rfl⟩
  | none =>
    have h2 := image_ext_has_format _ h
    rcases Option.isSome_iff_exists.mp h2 with ⟨v, hv⟩
    exact ⟨v, by simpa [resolveFmt] using hv⟩

/-- Claim C1: for every image file processed by compress_image_file, whenever
a destination file is written it is never larger than the original, and
whenever the re-encoded temporary file is at least as large as the original,
the destination file is identical to the source file (bytes and metadata,
via shutil.copy2). -/
theorem compress_never_grows (targetFormat : Option String) (decodeOk : Bool)
    (enc : EncCall → Except (Option File) File) (p : String)
    (src d tmpF : File) (call : EncCall)
    (h1 : (compress_image_file targetFormat decodeOk enc p src).encCall = some call)
    (h2 : enc call = Except.ok tmpF)
    (h3 : (compress_image_file targetFormat decodeOk enc p src).dest = some d) :
    d.bytes.length ≤ src.bytes.length ∧
      (src.bytes.length ≤ tmpF.bytes.length → d = src) := by
  cases decodeOk with
  | false => simp [compress_image_file] at h1
  | true =>
    cases hr : resolveFmt targetFormat p with
    | none => simp [compress_image_file, hr] at h1
    | some fmt =>
      cases he : enc (saveCall fmt src.bytes.length) with
      | error leftover => simp [compress_image_file, hr, he] at h3
      | ok f =>
        simp only [compress_image_file, hr, he, Bool.not_true, Bool.false_eq_true,
          if_false, Bool.not_false, if_true] at h1 h3
        by_cases hlt : f.bytes.length < src.bytes.length
        · simp only [hlt, if_true, Option.some.injEq] at h1 h3
          subst h1
          rw [he] at h2
          cases h2
          subst h3
          exact ⟨Nat.le_of_lt hlt, fun hge => absurd hlt (by omega)⟩
        · simp only [hlt, if_false, Option.some.injEq] at h1 h3
          subst h3
          exact ⟨Nat.le_refl _, fun _ => rfl⟩

/-- Witness for compress_never_grows: a concrete run where the re-encoded
file (5 bytes) is not smaller than the original (3 bytes), so the original
is kept. -/
theorem compress_never_grows_witness :
    (⟨[1, 2, 3], 0⟩ : File).bytes.length ≤ (⟨[1, 2, 3], 0⟩ : File).bytes.length ∧
      ((⟨[1, 2, 3], 0⟩ : File).bytes.length ≤ (⟨[9, 9, 9, 9, 9], 7⟩ : File).bytes.length →
        (⟨[1, 2, 3], 0⟩ : File) = ⟨[1, 2, 3], 0⟩) :=
  compress_never_grows none true (fun _ => Except.ok ⟨[9, 9, 9, 9, 9], 7⟩)
    "a.jpg" ⟨[1, 2, 3], 0⟩ ⟨[1, 2, 3], 0⟩ ⟨[9, 9, 9, 9, 9], 7⟩
    ⟨"JPEG", some 85, false⟩ (by decide) rfl (by decide)

/-- Claim C2 counterexample: in the download pipeline the re-encoded file
(5 bytes) is strictly larger than the downloaded original (1 byte), yet
download_and_compress_image saves the re-encoded file, not the smaller
original: it performs no size comparison at all. -/
theorem download_keeps_larger_counterexample :
    (download_and_compress_image "webp" true
        (fun _ => Except.ok ⟨[9, 9, 9, 9, 9], 1⟩) ⟨[7], 0⟩).saved =
      some ⟨[9, 9, 9, 9, 9], 1⟩ ∧
    (⟨[7], 0⟩ : File).bytes.length < (⟨[9, 9, 9, 9, 9], 1⟩ : File).bytes.length ∧
    (download_and_compress_image "webp" true
        (fun _ => Except.ok ⟨[9, 9, 9, 9, 9], 1⟩) ⟨[7], 0⟩).saved ≠
      some ⟨[7], 0⟩ := by
  refine ⟨rfl, by decide, ?_⟩
  decide

/-- Claim C2 (amended): only the directory-compression pipeline compares the
re-encoded size with the original and keeps the smaller; the download
pipeline saves whatever img.save produced, regardless of its size relative
to the downloaded bytes. -/
theorem download_saves_reencoded (targetFormat : String) (decodeOk : Bool)
    (enc : EncCall → Except (Option File) File) (downloaded f : File)
    (call : EncCall)
    (h1 : (download_and_compress_image targetFormat decodeOk enc downloaded).encCall
      = some call)
    (h2 : enc call = Except.ok f) :
    (download_and_compress_image targetFormat decodeOk enc downloaded).saved
      = some f := by
  cases decodeOk with
  | false => simp [download_and_compress_image] at h1
  | true =>
    by_cases hw : strLower targetFormat = "webp"
    · cases he : enc ⟨"WEBP", some 95, false⟩ with
      | error leftover =>
        simp [download_and_compress_image, hw, he] at h1
        subst h1
        rw [he] at h2
        cases h2
      | ok g =>
        simp [download_and_compress_image, hw, he] at h1 ⊢
        subst h1
        rw [he] at h2
        cases h2
        rfl
    · by_cases hp : strLower targetFormat = "png"
      · cases he : enc ⟨"PNG", none, true⟩ with
        | error leftover =>
          simp [download_and_compress_image, hw, hp, he] at h1
          subst h1
          rw [he] at h2
          cases h2
        | ok g =>
          simp [download_and_compress_image, hw, hp, he] at h1 ⊢
          subst h1
          rw [he] at h2
          cases h2
          rfl
      · simp [download_and_compress_image, hw, hp] at h1

/-- Witness for download_saves_reencoded at a concrete run. -/
theorem download_saves_reencoded_witness :
    (download_and_compress_image "webp" true (fun _ => Except.ok ⟨[4, 4], 2⟩)
        ⟨[1, 2, 3], 0⟩).saved = some ⟨[4, 4], 2⟩ :=
  download_saves_reencoded "webp" true (fun _ => Except.ok ⟨[4, 4], 2⟩)
    ⟨[1, 2, 3], 0⟩ ⟨[4, 4], 2⟩ ⟨"WEBP", some 95, false⟩ rfl rfl

/-- Claim C4 counterexample: when img.save raises after creating the
temporary file (a realistic PIL failure, e.g. saving an RGBA image as JPEG),
compress_image_file fails, and the partially written temp file is NOT
removed: its except block only logs. -/
theorem failed_encode_leaves_tmp_counterexample :
    (compress_image_file none true (fun _ => Except.error (some ⟨[5], 3⟩))
        "a.jpg" ⟨[1, 2], 0⟩).outcome = Outcome.failedEncode ∧
    (compress_image_file none true (fun _ => Except.error (some ⟨[5], 3⟩))
        "a.jpg" ⟨[1, 2], 0⟩).tmp = some ⟨[5], 3⟩ ∧
    (compress_image_file none true (fun _ => Except.error (some ⟨[5], 3⟩))
        "a.jpg" ⟨[1, 2], 0⟩).tmp ≠ none := by
  refine ⟨rfl, rfl, ?_⟩
  decide

/-- Claim C4 (amended): when the re-encoded temp file is strictly smaller,
it is atomically renamed onto the destination (os.replace) and no temp file
remains; when it is not smaller, the temp file is explicitly removed and the
original is copied directly to the destination; but when img.save raises,
whatever partial temp file it left behind remains on disk and no destination
file is written. -/
theorem tmp_lifecycle (targetFormat : Option String) (decodeOk : Bool)
    (enc : EncCall → Except (Option File) File) (p : String) (src f : File)
    (leftover : Option File) (call : EncCall)
    (h1 : (compress_image_file targetFormat decodeOk enc p src).encCall = some call) :
    (enc call = Except.ok f → f.bytes.length < src.bytes.length →
      (compress_image_file targetFormat decodeOk enc p src).dest = some f ∧
      (compress_image_file targetFormat decodeOk enc p src).tmp = none) ∧
    (enc call = Except.ok f → ¬ f.bytes.length < src.bytes.length →
      (compress_image_file targetFormat decodeOk enc p src).tmp = none ∧
      (compress_image_file targetFormat decodeOk enc p src).dest = some src) ∧
    (enc call = Except.error leftover →
      (compress_image_file targetFormat decodeOk enc p src).tmp = leftover ∧
      (compress_image_file targetFormat decodeOk enc p src).dest = none) := by
  cases decodeOk with
  | false => simp [compress_image_file] at h1
  | true =>
    cases hr : resolveFmt targetFormat p with
    | none => simp [compress_image_file, hr] at h1
    | some fmt =>
      cases he : enc (saveCall fmt src.bytes.length) with
      | error lo =>
        simp only [compress_image_file, hr, he, Bool.not_true, Bool.false_eq_true,
          if_false, Option.some.injEq] at h1 ⊢
        subst h1
        refine ⟨?_, ?_, ?_⟩
        · intro hok _; rw [he] at hok; cases hok
        · intro hok _; rw [he] at hok; cases hok
        · intro herr; rw [he] at herr; cases herr; simp [compress_image_file, hr, he]
      | ok g =>
        simp only [compress_image_file, hr, he, Bool.not_true, Bool.false_eq_true,
          if_false] at h1 ⊢
        by_cases hlt : g.bytes.length < src.bytes.length
        · simp only [hlt, if_true, Option.some.injEq] at h1
          subst h1
          refine ⟨?_, ?_, ?_⟩
          · intro hok _
            rw [he] at hok; cases hok
            simp [compress_image_file, hr, he, hlt]
          · intro hok hge
            rw [he] at hok; cases hok
            exact absurd hlt hge
          · intro herr; rw [he] at herr; cases herr
        · simp only [hlt, if_false, Option.some.injEq] at h1
          subst h1
          refine ⟨?_, ?_, ?_⟩
          · intro hok hlt2
            rw [he] at hok; cases hok
            exact absurd hlt2 hlt
          · intro hok _
            rw [he] at hok; cases hok
            simp [compress_image_file, hr, he, hlt]
          · intro herr; rw [he] at herr; cases herr

/-- Witness for tmp_lifecycle at a concrete run (the bloat branch: the
re-encoded file is not smaller, so the temp is removed and the original
copied). -/
theorem tmp_lifecycle_witness :
    ((Except.ok ⟨[8, 8, 8], 1⟩ : Except (Option File) File) = Except.ok ⟨[8, 8, 8], 1⟩ →
      (⟨[8, 8, 8], 1⟩ : File).bytes.length < (⟨[1, 2], 0⟩ : File).bytes.length →
      (compress_image_file none true
          (fun _ => (Except.ok ⟨[8, 8, 8], 1⟩ : Except (Option File) File))
          "a.jpg" ⟨[1, 2], 0⟩).dest = some ⟨[8, 8, 8], 1⟩ ∧
      (compress_image_file none true
          (fun _ => (Except.ok ⟨[8, 8, 8], 1⟩ : Except (Option File) File))
          "a.jpg" ⟨[1, 2], 0⟩).tmp = none) ∧
    ((Except.ok ⟨[8, 8, 8], 1⟩ : Except (Option File) File) = Except.ok ⟨[8, 8, 8], 1⟩ →
      ¬ (⟨[8, 8, 8], 1⟩ : File).bytes.length < (⟨[1, 2], 0⟩ : File).bytes.length →
      (compress_image_file none true
          (fun _ => (Except.ok ⟨[8, 8, 8], 1⟩ : Except (Option File) File))
          "a.jpg" ⟨[1, 2], 0⟩).tmp = none ∧
      (compress_image_file none true
          (fun _ => (Except.ok ⟨[8, 8, 8], 1⟩ : Except (Option File) File))
          "a.jpg" ⟨[1, 2], 0⟩).dest = some ⟨[1, 2], 0⟩) ∧
    ((Except.ok ⟨[8, 8, 8], 1⟩ : Except (Option File) File) = Except.error none →
      (compress_image_file none true
          (fun _ => (Except.ok ⟨[8, 8, 8], 1⟩ : Except (Option File) File))
          "a.jpg" ⟨[1, 2], 0⟩).tmp = none ∧
      (compress_image_file none true
          (fun _ => (Except.ok ⟨[8, 8, 8], 1⟩ : Except (Option File) File))
          "a.jpg" ⟨[1, 2], 0⟩).dest = none) :=
  tmp_lifecycle none true (fun _ => Except.ok ⟨[8, 8, 8], 1⟩) "a.jpg"
    ⟨[1, 2], 0⟩ ⟨[8, 8, 8], 1⟩ none ⟨"JPEG", some 85, false⟩ (by decide)

/-- Claim C6: in compress_image_file, for the lossy formats WEBP and JPEG,
the img.save quality equals the base QUALITY when the original size does not
exceed THRESHOLD, and max 1 (QUALITY - AGGRESSIVE_DROP) when it does. -/
theorem adaptive_quality (targetFormat : Option String) (decodeOk : Bool)
    (enc : EncCall → Except (Option File) File) (p : String) (src : File)
    (call : EncCall)
    (h1 : (compress_image_file targetFormat decodeOk enc p src).encCall = some call)
    (h2 : call.fmt = "WEBP" ∨ call.fmt = "JPEG") :
    (exceedsTHRESHOLD src.bytes.length = false → call.quality = some QUALITY) ∧
    (exceedsTHRESHOLD src.bytes.length = true →
      call.quality = some (max 1 (QUALITY - AGGRESSIVE_DROP))) := by
  cases decodeOk with
  | false => simp [compress_image_file] at h1
  | true =>
    cases hr : resolveFmt targetFormat p with
    | none => simp [compress_image_file, hr] at h1
    | some fmt =>
      have hcall : call = saveCall fmt src.bytes.length := by
        cases he : enc (saveCall fmt src.bytes.length) with
        | error lo =>
          simp only [compress_image_file, hr, he, Bool.not_true, Bool.false_eq_true,
            if_false, Option.some.injEq] at h1
          exact h1.symm
        | ok g =>
          simp only [compress_image_file, hr, he, Bool.not_true, Bool.false_eq_true,
            if_false] at h1
          by_cases hlt : g.bytes.length < src.bytes.length
          · simp only [hlt, if_true, Option.some.injEq] at h1
            exact h1.symm
          · simp only [hlt, if_false, Option.some.injEq] at h1
            exact h1.symm
      subst hcall
      by_cases hfmt : fmt = "WEBP" ∨ fmt = "JPEG"
      · simp only [saveCall, hfmt, if_true, qualityFor]
        constructor
        · intro hsz; simp [hsz]
        · intro hsz; simp [hsz]
      · exfalso
        apply hfmt
        by_cases hpng : fmt = "PNG"
        · simpa [saveCall, hfmt, hpng] using h2
        · simpa [saveCall, hfmt, hpng] using h2

/-- Witness for adaptive_quality: a concrete 3-byte JPEG, below THRESHOLD,
is encoded at the base quality 85. -/
theorem adaptive_quality_witness :
    (exceedsTHRESHOLD (⟨[1, 2, 3], 0⟩ : File).bytes.length = false →
      (⟨"JPEG", some 85, false⟩ : EncCall).quality = some QUALITY) ∧
    (exceedsTHRESHOLD (⟨[1, 2, 3], 0⟩ : File).bytes.length = true →
      (⟨"JPEG", some 85, false⟩ : EncCall).quality =
        some (max 1 (QUALITY - AGGRESSIVE_DROP))) :=
  adaptive_quality none true (fun _ => Except.ok ⟨[1], 0⟩) "a.jpg" ⟨[1, 2, 3], 0⟩
    ⟨"JPEG", some 85, false⟩ (by decide) (by decide)

/-- Claim C10: every extension in IMAGE_EXTENSIONS has an EXT_TO_FORMAT
entry, so with TARGET_FORMAT unset the "Unsupported output format" ValueError
branch of compress_image_file is unreachable for any file the tree walker
dispatches as an image (i.e. whose lowercased extension is recognized). -/
theorem unsupported_branch_unreachable (decodeOk : Bool)
    (enc : EncCall → Except (Option File) File) (p : String) (src : File)
    (h : strLower (splitext p).2 ∈ IMAGE_EXTENSIONS) :
    (alookup (strLower (splitext p).2) EXT_TO_FORMAT).isSome = true ∧
    (compress_image_file none decodeOk enc p src).outcome ≠
      Outcome.failedUnsupported := by
  refine ⟨image_ext_has_format _ h, ?_⟩
  rcases resolveFmt_isSome none p h with ⟨fmt, hfmt⟩
  cases decodeOk with
  | false => simp [compress_image_file]
  | true =>
    cases he : enc (saveCall fmt src.bytes.length) with
    | error lo => simp [compress_image_file, hfmt, he]
    | ok g =>
      by_cases hlt : g.bytes.length < src.bytes.length
      · simp [compress_image_file, hfmt, he, hlt]
      · simp [compress_image_file, hfmt, he, hlt]

/-- Witness for unsupported_branch_unreachable at a concrete .jpg path. -/
theorem unsupported_branch_unreachable_witness :
    (alookup (strLower (splitext "photos/cat.jpg").2) EXT_TO_FORMAT).isSome = true ∧
    (compress_image_file none false
        (fun _ => (Except.error none : Except (Option File) File))
        "photos/cat.jpg" ⟨[1], 0⟩).outcome ≠ Outcome.failedUnsupported :=
  unsupported_branch_unreachable false (fun _ => Except.error none)
    "photos/cat.jpg" ⟨[1], 0⟩ (by decide)

/-- Helper: splitext splits a path into two parts whose concatenation is the
original path. -/
lemma splitextL_append (p : List Char) : (splitextL p).1 ++ (splitextL p).2 = p := by
  unfold splitextL
  cases h : lastIdx '.' p with
  | none => simp
  | some d =>
    by_cases hc : extOK p d
    · simp [hc, List.take_append_drop]
    · simp [hc]

/-- Helper: splitext on strings splits a path into base and extension whose
concatenation is the original string. -/
lemma splitext_append (s : String) : (splitext s).1 ++ (splitext s).2 = s := by
  apply String.ext
  rw [String.data_append]
  exact splitextL_append s.data

/-- Helper: looking up the key just written by upsert yields the new value. -/
lemma alookup_upsert_self {α β : Type} [DecidableEq α]
    (st : List (α × β)) (k : α) (v : β) : alookup k (upsert st k v) = some v := by
  induction st with
  | nil => simp [upsert, alookup]
  | cons p st ih =>
    obtain ⟨a, b⟩ := p
    by_cases hak : a = k
    · simp [upsert, hak, alookup]
    · simp only [upsert, if_neg hak, alookup]
      exact ih

/-- Helper: upsert leaves lookups at other keys unchanged. -/
lemma alookup_upsert_ne {α β : Type} [DecidableEq α]
    (st : List (α × β)) (k k2 : α) (v : β) (h : k2 ≠ k) :
    alookup k2 (upsert st k v) = alookup k2 st := by
  induction st with
  | nil =>
    simp only [upsert, alookup]
    rw [if_neg (fun he => h he.symm)]
  | cons p st ih =>
    obtain ⟨a, b⟩ := p
    by_cases hak : a = k
    · subst hak
      simp only [upsert, if_pos rfl, alookup]
      rw [if_neg (fun he => h he.symm), if_neg (fun he => h he.symm)]
    · simp only [upsert, if_neg hak, alookup]
      rw [ih]

/-- Helper: upsert with a fresh key appends the binding at the end. -/
lemma upsert_fresh {α β : Type} [DecidableEq α]
    (st : List (α × β)) (k : α) (v : β) (h : k ∉ st.map Prod.fst) :
    upsert st k v = st ++ [(k, v)] := by
  induction st with
  | nil => simp [upsert]
  | cons p st ih =>
    obtain ⟨a, b⟩ := p
    simp only [List.map_cons, List.mem_cons] at h
    push_neg at h
    simp only [upsert, List.cons_append]
    rw [if_neg (fun he => h.1 he.symm), ih h.2]

/-- A regular file discovered by the tree walker: its directory path relative
to SOURCE_DIR (as components), its base name, and its content. -/
structure Entry where
  relDir : List String
  fname : String
  file : File
deriving DecidableEq

/-- Destination file name computed by main for one source file name
(lines 127-137 of withSource/main.py): for a recognized image extension the
name is base plus the configured target extension, or the lowercased original
extension when TARGET_FORMAT is None; any other file keeps base + ext. -/
def destName (targetFormat : Option String) (fname : String) : String :=
  let be := splitext fname
  if strLower be.2 ∈ IMAGE_EXTENSIONS then
    be.1 ++ (match targetFormat with
             | some t => "." ++ strLower t
             | none => strLower be.2)
  else be.1 ++ be.2

/-- Destination key (mirrored relative directory, output file name) of one
source entry. -/
def destKey (targetFormat : Option String) (e : Entry) : List String × String :=
  (e.relDir, destName targetFormat e.fname)

/-- One iteration of the loop in main (withSource/main.py lines 122-139),
acting on the output store (a finite map from mirrored relative paths to
files): image files go through compress_image_file, writing the destination
file and any leftover temp file; other files are copied with shutil.copy2
(bytes and mtime). -/
def processEntry (targetFormat : Option String) (dec : File → Bool)
    (enc : File → EncCall → Except (Option File) File)
    (st : List ((List String × String) × File)) (e : Entry) :
    List ((List String × String) × File) :=
  if strLower (splitext e.fname).2 ∈ IMAGE_EXTENSIONS then
    let out := compress_image_file targetFormat (dec e.file) (enc e.file)
      e.fname e.file
    let st1 := match out.dest with
      | some f => upsert st (e.relDir, destName targetFormat e.fname) f
      | none => st
    match out.tmp with
    | some f => upsert st1 (e.relDir, destName targetFormat e.fname ++ ".tmp") f
    | none => st1
  else
    upsert st (e.relDir, destName targetFormat e.fname) e.file

/-- Model of main from withSource/main.py: fold the per-file processing over
all files gathered from the source tree, starting from an empty output tree.
dec and enc model PIL decoding and encoding per source file. -/
def runMain (targetFormat : Option String) (dec : File → Bool)
    (enc : File → EncCall → Except (Option File) File)
    (tree : List Entry) : List ((List String × String) × File) :=
  tree.foldl (processEntry targetFormat dec enc) []

/-- Claim C5 counterexample: with TARGET_FORMAT unset, an image file whose
extension is upper case gets a lowercased extension in the destination name
(main lowercases the extension of every recognized image), so the extension
is not unchanged. -/
theorem extension_lowercased_counterexample :
    destName none "photo.JPG" = "photo.jpg" ∧ ("photo.jpg" : String) ≠ "photo.JPG" := by
  constructor
  · decide
  · decide

/-- Claim C5 (amended): the destination name keeps base + extension unchanged
for non-image files; for recognized image files the extension is rewritten to
the configured target format when one is set, and otherwise replaced by its
lowercased form (so upper-case image extensions are changed even without a
target format). -/
theorem extension_rewrite (targetFormat : Option String) (t fname : String) :
    (strLower (splitext fname).2 ∉ IMAGE_EXTENSIONS →
      destName targetFormat fname = fname) ∧
    (strLower (splitext fname).2 ∈ IMAGE_EXTENSIONS →
      destName none fname = (splitext fname).1 ++ strLower (splitext fname).2 ∧
      destName (some t) fname = (splitext fname).1 ++ ("." ++ strLower t)) := by
  constructor
  · intro himg
    simp only [destName, if_neg himg]
    exact splitext_append fname
  · intro himg
    constructor
    · simp [destName, himg]
    · simp [destName, himg]

/-- Witness for extension_rewrite: the image branch at a concrete file name. -/
theorem extension_rewrite_witness :
    destName none "photo.JPG" =
      (splitext "photo.JPG").1 ++ strLower (splitext "photo.JPG").2 ∧
    destName (some "webp") "photo.JPG" =
      (splitext "photo.JPG").1 ++ ("." ++ strLower "webp") :=
  (extension_rewrite none "webp" "photo.JPG").2 (by decide)

/-- Claim C3 counterexample: a source tree with one file (an image whose
decode fails, e.g. a corrupt .jpg) produces an output tree with zero files:
the error is only logged, so the file count is not preserved. -/
theorem dropped_file_counterexample :
    ([(⟨[], "a.jpg", ⟨[1], 0⟩⟩ : Entry)]).length = 1 ∧
    (runMain none (fun _ => false) (fun _ _ => Except.error none)
      [⟨[], "a.jpg", ⟨[1], 0⟩⟩]).length = 0 := by
  constructor
  · rfl
  · rfl

/-- Helper: with decoding succeeded and the save succeeding, processEntry is
exactly one upsert at the entry's destination key. -/
lemma processEntry_success (targetFormat : Option String) (dec : File → Bool)
    (enc : File → EncCall → Except (Option File) File)
    (st : List ((List String × String) × File)) (e : Entry)
    (hdec : dec e.file = true)
    (henc : ∀ call, ∃ f, enc e.file call = Except.ok f) :
    ∃ d, processEntry targetFormat dec enc st e
      = upsert st (destKey targetFormat e) d := by
  by_cases himg : strLower (splitext e.fname).2 ∈ IMAGE_EXTENSIONS
  · rcases resolveFmt_isSome targetFormat e.fname himg with ⟨fmt, hr⟩
    rcases henc (saveCall fmt e.file.bytes.length) with ⟨f, hf⟩
    by_cases hlt : f.bytes.length < e.file.bytes.length
    · exact ⟨f, by
        simp [processEntry, himg, hdec, compress_image_file, hr, hf, hlt, destKey]⟩
    · exact ⟨e.file, by
        simp [processEntry, himg, hdec, compress_image_file, hr, hf, hlt, destKey]⟩
  · exact ⟨e.file, by simp [processEntry, himg, destKey]⟩

/-- Helper: the loop of main, started from any store disjoint from the
incoming destination keys, appends exactly one output file per source entry,
in order, at the entries' destination keys. -/
lemma runMain_go (targetFormat : Option String) (dec : File → Bool)
    (enc : File → EncCall → Except (Option File) File) :
    ∀ (tree : List Entry) (st : List ((List String × String) × File)),
      (∀ e ∈ tree, dec e.file = true) →
      (∀ e ∈ tree, ∀ call, ∃ f, enc e.file call = Except.ok f) →
      (tree.map (destKey targetFormat)).Nodup →
      (∀ e ∈ tree, destKey targetFormat e ∉ st.map Prod.fst) →
      (List.foldl (processEntry targetFormat dec enc) st tree).map Prod.fst
        = st.map Prod.fst ++ tree.map (destKey targetFormat) := by
  intro tree
  induction tree with
  | nil => intro st _ _ _ _; simp
  | cons e es ih =>
    intro st hdec henc hnodup hdisj
    rcases processEntry_success targetFormat dec enc st e
      (hdec e (List.mem_cons_self e es)) (henc e (List.mem_cons_self e es)) with ⟨d, hd⟩
    have hfresh : destKey targetFormat e ∉ st.map Prod.fst :=
      hdisj e (List.mem_cons_self e es)
    have hkey : destKey targetFormat e ∉ es.map (destKey targetFormat) :=
      (List.nodup_cons.mp (by simpa using hnodup)).1
    have hnodup2 : (es.map (destKey targetFormat)).Nodup :=
      (List.nodup_cons.mp (by simpa using hnodup)).2
    rw [List.foldl_cons, hd, upsert_fresh st _ d hfresh]
    rw [ih (st ++ [(destKey targetFormat e, d)])
      (fun e2 h2 => hdec e2 (List.mem_cons_of_mem e h2))
      (fun e2 h2 => henc e2 (List.mem_cons_of_mem e h2))
      hnodup2
      ?_]
    · simp
    · intro e2 h2
      simp only [List.map_append, List.mem_append, List.map_cons, List.map_nil,
        List.mem_singleton]
      push_neg
      refine ⟨hdisj e2 (List.mem_cons_of_mem e h2), ?_⟩
      intro hcontra
      exact hkey (hcontra ▸ List.mem_map_of_mem (destKey targetFormat) h2)

/-- Claim C3 (amended): for a source tree with K files, provided every image
file decodes and re-encodes without error and all destination keys are
distinct, the output tree contains exactly K files, one per source file, at
the mirrored relative paths given by destKey (directory mirrored; image file
names may have their extension lowercased or rewritten to the target
format). -/
theorem mirrored_tree (targetFormat : Option String) (dec : File → Bool)
    (enc : File → EncCall → Except (Option File) File) (tree : List Entry)
    (hdec : ∀ e ∈ tree, dec e.file = true)
    (henc : ∀ e ∈ tree, ∀ call, ∃ f, enc e.file call = Except.ok f)
    (hnodup : (tree.map (destKey targetFormat)).Nodup) :
    (runMain targetFormat dec enc tree).map Prod.fst
      = tree.map (destKey targetFormat) ∧
    (runMain targetFormat dec enc tree).length = tree.length := by
  have h := runMain_go targetFormat dec enc tree [] hdec henc hnodup (by simp)
  constructor
  · simpa [runMain] using h
  · calc (runMain targetFormat dec enc tree).length
        = ((runMain targetFormat dec enc tree).map Prod.fst).length := by
          rw [List.length_map]
      _ = (tree.map (destKey targetFormat)).length := by
          rw [show (runMain targetFormat dec enc tree).map Prod.fst
            = tree.map (destKey targetFormat) from by simpa [runMain] using h]
      _ = tree.length := List.length_map tree _

/-- Witness for mirrored_tree: a concrete two-file tree (one image, one
opaque file) yields exactly two mirrored output files. -/
theorem mirrored_tree_witness :
    (runMain none (fun _ => true)
        (fun _ _ => (Except.ok ⟨[9], 7⟩ : Except (Option File) File))
        [⟨[], "a.jpg", ⟨[1, 2, 3], 0⟩⟩, ⟨["docs"], "note.txt", ⟨[5], 1⟩⟩]).map Prod.fst
      = ([⟨[], "a.jpg", ⟨[1, 2, 3], 0⟩⟩,
          ⟨["docs"], "note.txt", ⟨[5], 1⟩⟩] : List Entry).map (destKey none) ∧
    (runMain none (fun _ => true)
        (fun _ _ => (Except.ok ⟨[9], 7⟩ : Except (Option File) File))
        [⟨[], "a.jpg", ⟨[1, 2, 3], 0⟩⟩, ⟨["docs"], "note.txt", ⟨[5], 1⟩⟩]).length
      = ([⟨[], "a.jpg", ⟨[1, 2, 3], 0⟩⟩,
          ⟨["docs"], "note.txt", ⟨[5], 1⟩⟩] : List Entry).length :=
  mirrored_tree none (fun _ => true) (fun _ _ => Except.ok ⟨[9], 7⟩)
    [⟨[], "a.jpg", ⟨[1, 2, 3], 0⟩⟩, ⟨["docs"], "note.txt", ⟨[5], 1⟩⟩]
    (by decide) (fun _ _ _ => ⟨⟨[9], 7⟩, rfl⟩) (by decide)

/-- Helper: one loop iteration only writes at the entry's destination key or
at its temporary-file key; every other key keeps its previous file. -/
lemma processEntry_preserves (targetFormat : Option String) (dec : File → Bool)
    (enc : File → EncCall → Except (Option File) File)
    (st : List ((List String × String) × File)) (e : Entry)
    (k : List String × String)
    (h1 : k ≠ (e.relDir, destName targetFormat e.fname))
    (h2 : k ≠ (e.relDir, destName targetFormat e.fname ++ ".tmp")) :
    alookup k (processEntry targetFormat dec enc st e) = alookup k st := by
  unfold processEntry
  by_cases himg : strLower (splitext e.fname).2 ∈ IMAGE_EXTENSIONS
  · simp only [himg, if_true]
    cases hd : (compress_image_file targetFormat (dec e.file) (enc e.file)
        e.fname e.file).dest with
    | none =>
      cases ht : (compress_image_file targetFormat (dec e.file) (enc e.file)
          e.fname e.file).tmp with
      | none => simp [hd, ht]
      | some g => simp [hd, ht, alookup_upsert_ne _ _ _ _ h2]
    | some f =>
      cases ht : (compress_image_file targetFormat (dec e.file) (enc e.file)
          e.fname e.file).tmp with
      | none => simp [hd, ht, alookup_upsert_ne _ _ _ _ h1]
      | some g =>
        simp only [hd, ht]
        rw [alookup_upsert_ne _ _ _ _ h2, alookup_upsert_ne _ _ _ _ h1]
  · simp only [himg, if_false]
    exact alookup_upsert_ne _ _ _ _ h1

/-- Helper: folding the loop over entries none of which writes at key k
preserves the file stored at k. -/
lemma foldl_preserves (targetFormat : Option String) (dec : File → Bool)
    (enc : File → EncCall → Except (Option File) File)
    (k : List String × String) :
    ∀ (es : List Entry) (st : List ((List String × String) × File)),
      (∀ e ∈ es, k ≠ (e.relDir, destName targetFormat e.fname) ∧
        k ≠ (e.relDir, destName targetFormat e.fname ++ ".tmp")) →
      alookup k (List.foldl (processEntry targetFormat dec enc) st es)
        = alookup k st := by
  intro es
  induction es with
  | nil => intro st _; rfl
  | cons e es ih =>
    intro st h
    rw [List.foldl_cons,
      ih _ (fun e2 h2 => h e2 (List.mem_cons_of_mem e h2)),
      processEntry_preserves targetFormat dec enc st e k
        (h e (List.mem_cons_self e es)).1 (h e (List.mem_cons_self e es)).2]

/-- Claim C9: every file whose lowercased extension is not a recognized image
extension is copied to its mirrored destination as-is: same bytes, same
mtime (shutil.copy2 preserves metadata), and an unchanged file name, provided
the source entries are distinct and no other entry writes onto that
destination. -/
theorem opaque_files_copied (targetFormat : Option String) (dec : File → Bool)
    (enc : File → EncCall → Except (Option File) File)
    (tree : List Entry) (e : Entry)
    (he : e ∈ tree) (hnodup : tree.Nodup)
    (himg : strLower (splitext e.fname).2 ∉ IMAGE_EXTENSIONS)
    (hsolo : ∀ e2 ∈ tree, e2 ≠ e →
      (e2.relDir, destName targetFormat e2.fname) ≠ (e.relDir, e.fname) ∧
      (e2.relDir, destName targetFormat e2.fname ++ ".tmp") ≠ (e.relDir, e.fname)) :
    alookup (e.relDir, e.fname) (runMain targetFormat dec enc tree)
      = some e.file ∧
    destName targetFormat e.fname = e.fname := by
  have hdn : destName targetFormat e.fname = e.fname := by
    simp only [destName, if_neg himg]
    exact splitext_append e.fname
  refine ⟨?_, hdn⟩
  rcases List.append_of_mem he with ⟨l1, l2, rfl⟩
  rw [runMain, List.foldl_append, List.foldl_cons]
  have hel2 : e ∉ l2 := by
    have := List.Nodup.of_append_right hnodup
    exact (List.nodup_cons.mp this).1
  have hstep : alookup (e.relDir, e.fname)
      (processEntry targetFormat dec enc
        (List.foldl (processEntry targetFormat dec enc) [] l1) e)
      = some e.file := by
    unfold processEntry
    simp only [if_neg himg, hdn]
    exact alookup_upsert_self _ _ _
  rw [foldl_preserves targetFormat dec enc _ l2 _ ?_, hstep]
  intro e2 h2
  have he2ne : e2 ≠ e := fun hcontra => hel2 (hcontra ▸ h2)
  have he2mem : e2 ∈ l1 ++ e :: l2 :=
    List.mem_append_right l1 (List.mem_cons_of_mem e h2)
  have := hsolo e2 he2mem he2ne
  exact ⟨fun hk => this.1 hk.symm, fun hk => this.2 hk.symm⟩

/-- Witness for opaque_files_copied: a concrete tree with one text file and
one image; the text file arrives byte- and mtime-identical under its own
name. -/
theorem opaque_files_copied_witness :
    alookup (["docs"], "readme.txt")
      (runMain none (fun _ => true)
        (fun _ _ => (Except.ok ⟨[9], 7⟩ : Except (Option File) File))
        [⟨["docs"], "readme.txt", ⟨[1, 2], 5⟩⟩, ⟨[], "a.jpg", ⟨[3], 0⟩⟩])
      = some ⟨[1, 2], 5⟩ ∧
    destName none "readme.txt" = "readme.txt" :=
  opaque_files_copied none (fun _ => true) (fun _ _ => Except.ok ⟨[9], 7⟩)
    [⟨["docs"], "readme.txt", ⟨[1, 2], 5⟩⟩, ⟨[], "a.jpg", ⟨[3], 0⟩⟩]
    ⟨["docs"], "readme.txt", ⟨[1, 2], 5⟩⟩
    (by decide) (by decide) (by decide) (by decide)

/-- Python regex whitespace class on the ASCII range, as used by the block
pattern of read_docx_data. -/
def isWS (c : Char) : Bool :=
  c == ' ' || c == '\t' || c == '\n' || c == '\r' || c == '\x0b' || c == '\x0c'

/-- Python str.strip: remove leading and trailing whitespace. -/
def strip (cs : List Char) : List Char :=
  ((cs.dropWhile isWS).reverse.dropWhile isWS).reverse

/-- One attempt of the URL pattern of read_docx_data at the position right
after an opening quote character.  The pattern is an http or https scheme
(the word boundary before it always holds after a quote), then one or more
characters that are neither a straight double quote nor a right curly quote,
then a closing quote from that same two-character class.  On success it
returns the captured URL and the text after the closing quote; the
alternation and the greedy body are deterministic here, since the body class
excludes exactly the closing-quote characters. -/
def urlBody (rest : List Char) : List Char :=
  rest.takeWhile (fun c => !(c == '"' || c == '”'))

/-- The deterministic match attempt itself: scheme, then the greedy body,
then the closing quote; see the preceding comment. -/
def matchUrl (cs : List Char) : Option (List Char × List Char) :=
  let schemeOpt : Option (List Char × List Char) :=
    if cs.take 8 = "https://".data then some ("https://".data, cs.drop 8)
    else if cs.take 7 = "http://".data then some ("http://".data, cs.drop 7)
    else none
  match schemeOpt with
  | none => none
  | some (sch, rest) =>
    match rest.drop (urlBody rest).length with
    | [] => none
    | _ :: tail =>
      if (urlBody rest).isEmpty then none else some (sch ++ urlBody rest, tail)

/-- Scanner for re.findall with the URL pattern: try a match at every
position whose character is an opening quote (straight double or left curly),
emit the capture and continue after the match (matches do not overlap),
otherwise advance one character.  The fuel argument bounds the recursion by
the text length and never runs out when it starts at the text length. -/
def goUrls : Nat → List Char → List (List Char)
  | 0, _ => []
  | _, [] => []
  | fuel + 1, c :: cs =>
    if c == '"' || c == '“' then
      match matchUrl cs with
      | some (url, rest) => url :: goUrls fuel rest
      | none => goUrls fuel cs
    else goUrls fuel cs

/-- re.findall of the URL pattern over a text (line 43 of withLinks/main.py). -/
def findUrls (cs : List Char) : List (List Char) := goUrls cs.length cs

/-- One attempt of the block pattern of read_docx_data at a position where
the MULTILINE anchor holds (start of text or just after a newline).  The
category is the full nonempty line; the pattern then requires whitespace
containing a newline, followed immediately by an opening bracket (the
whitespace run after the line starts with its newline and, since a bracket is
not whitespace, the bracket can only sit at the run's end); the array group
is the bracket up to the first closing bracket (non-greedy dot with DOTALL).
On success it returns the category line, the array group and the rest of the
text after the match. -/
def tryBlock (cs : List Char) : Option (List Char × List Char × List Char) :=
  let line := cs.takeWhile (fun c => !(c == '\n'))
  if line.isEmpty then none
  else
    match cs.drop line.length with
    | [] => none
    | r :: rs =>
      match (r :: rs).drop ((r :: rs).takeWhile isWS).length with
      | '[' :: tail =>
        let inner := tail.takeWhile (fun c => !(c == ']'))
        match tail.drop inner.length with
        | ']' :: tail2 => some (line, '[' :: (inner ++ [']']), tail2)
        | _ => none
      | _ => none

/-- Scanner for re.finditer with the block pattern: attempt a match at every
position where the line anchor holds, emit the (category, array) groups and
continue after the match, otherwise advance one character while tracking
whether the next position starts a line.  Fueled by the text length. -/
def goBlocks : Nat → Bool → List Char → List (List Char × List Char)
  | 0, _, _ => []
  | _, _, [] => []
  | fuel + 1, atStart, c :: cs =>
    if atStart then
      match tryBlock (c :: cs) with
      | some (cat, arr, rest) => (cat, arr) :: goBlocks fuel false rest
      | none => goBlocks fuel (c == '\n') cs
    else goBlocks fuel (c == '\n') cs

/-- re.finditer of the block pattern over the whole document text
(lines 35-39 of withLinks/main.py). -/
def findBlocks (cs : List Char) : List (List Char × List Char) :=
  goBlocks cs.length true cs

/-- The dictionary construction of read_docx_data from the matched blocks:
for each block, strip the category and findall the URLs in the array group;
blocks with no URLs are only logged, the others assign into the dict
(duplicate categories overwrite). -/
def buildData (blocks : List (List Char × List Char)) :
    List (List Char × List (List Char)) :=
  blocks.foldl
    (fun d cb =>
      let urls := findUrls cb.2
      if urls.isEmpty then d else upsert d (strip cb.1) urls)
    []

/-- Model of read_docx_data from withLinks/main.py on the document text
(the join of the paragraph texts). -/
def read_docx_data (text : List Char) : List (List Char × List (List Char)) :=
  buildData (findBlocks text)

/-- Helper: the URL scanner returns nothing on empty text, for any fuel. -/
lemma goUrls_nil (f : Nat) : goUrls f [] = [] := by
  cases f <;> rfl

/-- Helper: a successful URL match consumes at least the opening scheme, so
the remaining text is strictly shorter. -/
lemma matchUrl_length {cs url rest : List Char}
    (h : matchUrl cs = some (url, rest)) : rest.length < cs.length := by
  unfold matchUrl at h
  by_cases h8 : cs.take 8 = "https://".data
  · have hlen8 : 8 ≤ cs.length := by
      have := congrArg List.length h8
      simp [List.length_take] at this
      omega
    simp only [h8, if_true] at h
    cases hd : (cs.drop 8).drop (urlBody (cs.drop 8)).length with
    | nil => rw [hd] at h; simp at h
    | cons x tail =>
      rw [hd] at h
      by_cases hbe : (urlBody (cs.drop 8)).isEmpty
      · simp [hbe] at h
      · simp only [hbe, Bool.false_eq_true, if_false, Option.some.injEq,
          Prod.mk.injEq] at h
        have e1 : (cs.drop 8).length = cs.length - 8 := List.length_drop 8 cs
        have e2 := List.length_drop (urlBody (cs.drop 8)).length (cs.drop 8)
        rw [hd] at e2
        simp only [List.length_cons] at e2
        have : tail = rest := h.2
        subst this
        omega
  · by_cases h7 : cs.take 7 = "http://".data
    · have hlen7 : 7 ≤ cs.length := by
        have := congrArg List.length h7
        simp [List.length_take] at this
        omega
      simp only [h8, h7, if_true, if_false] at h
      cases hd : (cs.drop 7).drop (urlBody (cs.drop 7)).length with
      | nil => rw [hd] at h; simp at h
      | cons x tail =>
        rw [hd] at h
        by_cases hbe : (urlBody (cs.drop 7)).isEmpty
        · simp [hbe] at h
        · simp only [hbe, Bool.false_eq_true, if_false, Option.some.injEq,
            Prod.mk.injEq] at h
          have e1 : (cs.drop 7).length = cs.length - 7 := List.length_drop 7 cs
          have e2 := List.length_drop (urlBody (cs.drop 7)).length (cs.drop 7)
          rw [hd] at e2
          simp only [List.length_cons] at e2
          have : tail = rest := h.2
          subst this
          omega
    · simp [h8, h7] at h

/-- Helper: the URL scanner is independent of the fuel, as long as the fuel
is at least the text length. -/
lemma goUrls_stable : ∀ (f g : Nat) (cs : List Char),
    cs.length ≤ f → cs.length ≤ g → goUrls f cs = goUrls g cs := by
  intro f
  induction f with
  | zero =>
    intro g cs hf _
    have : cs = [] := List.eq_nil_of_length_eq_zero (Nat.le_zero.mp hf)
    subst this
    rw [goUrls_nil, goUrls_nil]
  | succ f ih =>
    intro g cs hf hg
    cases cs with
    | nil => rw [goUrls_nil, goUrls_nil]
    | cons c cs2 =>
      cases g with
      | zero => simp at hg
      | succ g2 =>
        simp only [List.length_cons, Nat.succ_le_succ_iff] at hf hg
        show goUrls (f + 1) (c :: cs2) = goUrls (g2 + 1) (c :: cs2)
        by_cases hc : (c == '"' || c == '“') = true
        · simp only [goUrls, hc, if_true]
          cases hm : matchUrl cs2 with
          | none => exact ih g2 cs2 hf hg
          | some ur =>
            obtain ⟨url, rest⟩ := ur
            have hlen := matchUrl_length hm
            show url :: goUrls f rest = url :: goUrls g2 rest
            rw [ih g2 rest (by omega) (by omega)]
        · simp only [goUrls, if_neg hc]
          exact ih g2 cs2 hf hg

/-- Helper: the block scanner returns nothing on empty text, for any fuel. -/
lemma goBlocks_nil (f : Nat) (b : Bool) : goBlocks f b [] = [] := by
  cases f <;> rfl

/-- Helper: takeWhile never yields more than the whole list. -/
lemma length_takeWhile_le (p : Char → Bool) (l : List Char) :
    (l.takeWhile p).length ≤ l.length := by
  induction l with
  | nil => simp
  | cons a l ih =>
    by_cases h : p a <;> simp [List.takeWhile_cons, h] <;> omega

/-- Helper: a successful block match consumes at least the category line, its
newline and the bracket pair, so the remaining text is strictly shorter. -/
lemma tryBlock_length {cs cat arr rest : List Char}
    (h : tryBlock cs = some (cat, arr, rest)) : rest.length < cs.length := by
  simp only [tryBlock] at h
  split at h
  · exact absurd h (by simp)
  · rename_i hline
    split at h
    · exact absurd h (by simp)
    · rename_i r rs hdrop
      split at h
      · rename_i tail hafter
        split at h
        · rename_i tail2 hd2
          simp only [Option.some.injEq, Prod.mk.injEq] at h
          obtain ⟨h1, h2, h3⟩ := h
          subst h3
          have e0 : (cs.takeWhile (fun c => !(c == '\n'))) ≠ [] := by
            intro hcontra
            exact hline (by simp [hcontra])
          have e0b : 0 < (cs.takeWhile (fun c => !(c == '\n'))).length :=
            List.length_pos.mpr e0
          have e0c := length_takeWhile_le (fun c => !(c == '\n')) cs
          have e1 := congrArg List.length hdrop
          rw [List.length_drop] at e1
          simp only [List.length_cons] at e1
          have e2 := congrArg List.length hafter
          rw [List.length_drop] at e2
          simp only [List.length_cons] at e2
          have e3 := congrArg List.length hd2
          rw [List.length_drop] at e3
          simp only [List.length_cons] at e3
          omega
        · exact absurd h (by simp)
      · exact absurd h (by simp)

/-- Helper: the block scanner is independent of the fuel, as long as the fuel
is at least the text length. -/
lemma goBlocks_stable : ∀ (f g : Nat) (b : Bool) (cs : List Char),
    cs.length ≤ f → cs.length ≤ g → goBlocks f b cs = goBlocks g b cs := by
  intro f
  induction f with
  | zero =>
    intro g b cs hf _
    have : cs = [] := List.eq_nil_of_length_eq_zero (Nat.le_zero.mp hf)
    subst this
    rw [goBlocks_nil, goBlocks_nil]
  | succ f ih =>
    intro g b cs hf hg
    cases cs with
    | nil => rw [goBlocks_nil, goBlocks_nil]
    | cons c cs2 =>
      cases g with
      | zero => simp at hg
      | succ g2 =>
        simp only [List.length_cons, Nat.succ_le_succ_iff] at hf hg
        show goBlocks (f + 1) b (c :: cs2) = goBlocks (g2 + 1) b (c :: cs2)
        cases b with
        | false =>
          simp only [goBlocks, Bool.false_eq_true, if_false]
          exact ih g2 (c == '\n') cs2 hf hg
        | true =>
          simp only [goBlocks, if_true]
          cases hm : tryBlock (c :: cs2) with
          | none => exact ih g2 (c == '\n') cs2 hf hg
          | some t =>
            obtain ⟨cat, arr, rest⟩ := t
            have hlen := tryBlock_length hm
            simp only [List.length_cons] at hlen
            show (cat, arr) :: goBlocks f false rest
              = (cat, arr) :: goBlocks g2 false rest
            rw [ih g2 false rest (by omega) (by omega)]

/-- Specification-side recursion: walking the blocks left to right, keep the
URL list of the last block whose stripped category is cat and whose array
yields at least one URL, starting from a default. -/
def lastWith (cat : List Char) :
    Option (List (List Char)) → List (List Char × List Char) →
    Option (List (List Char))
  | a0, [] => a0
  | a0, cb :: bs =>
    lastWith cat
      (if strip cb.1 = cat ∧ (findUrls cb.2).isEmpty = false
       then some (findUrls cb.2) else a0) bs

/-- The URL list of the last block for a category that extracted at least one
URL, if any. -/
def lastUrls (blocks : List (List Char × List Char)) (cat : List Char) :
    Option (List (List Char)) :=
  lastWith cat none blocks

/-- Helper: looking up a category in the dict built by read_docx_data from a
starting dict agrees with the last-wins recursion seeded with the starting
dict's entry. -/
lemma alookup_buildData_fold (cat : List Char) :
    ∀ (blocks : List (List Char × List Char))
      (d : List (List Char × List (List Char))),
      alookup cat (blocks.foldl
        (fun d cb =>
          let urls := findUrls cb.2
          if urls.isEmpty then d else upsert d (strip cb.1) urls) d)
      = lastWith cat (alookup cat d) blocks := by
  intro blocks
  induction blocks with
  | nil => intro d; rfl
  | cons cb bs ih =>
    intro d
    rw [List.foldl_cons, ih]
    show lastWith cat
        (alookup cat (if (findUrls cb.2).isEmpty then d
          else upsert d (strip cb.1) (findUrls cb.2))) bs
      = lastWith cat
        (if strip cb.1 = cat ∧ (findUrls cb.2).isEmpty = false
         then some (findUrls cb.2) else alookup cat d) bs
    congr 1
    by_cases hu : (findUrls cb.2).isEmpty
    · rw [if_pos hu, if_neg]
      intro hcontra
      rw [hu] at hcontra
      exact absurd hcontra.2 (by simp)
    · rw [if_neg hu]
      by_cases hcat : strip cb.1 = cat
      · rw [if_pos ⟨hcat, by simpa using hu⟩, hcat, alookup_upsert_self]
      · rw [if_neg (fun hcontra => hcat hcontra.1),
          alookup_upsert_ne _ _ _ _ (fun he => hcat he.symm)]

/-- Claim C8: the mapping built by read_docx_data contains a category exactly
when some block for it extracted at least one URL (zero-URL blocks are
dropped), and the stored list is the last such block's URL list (duplicate
categories overwrite, last occurrence wins); on the Cats/Dogs scenario
document the result maps only Cats to its two URLs and Dogs is dropped. -/
theorem category_map_last_wins (blocks : List (List Char × List Char))
    (cat : List Char) :
    alookup cat (buildData blocks) = lastUrls blocks cat ∧
    read_docx_data
        ("Cats\n[\"https://a/1.jpg\", \"https://a/2.jpg\"]\nDogs\n[]").data
      = [("Cats".data, ["https://a/1.jpg".data, "https://a/2.jpg".data])] := by
  constructor
  · have h := alookup_buildData_fold cat blocks []
    simpa [buildData, lastUrls, alookup] using h
  · rfl

/-- A quoted URL item as it occurs in a well-formed array block: an opening
quote character, the scheme choice (https or http), the rest of the URL, and
a closing quote character. -/
structure QUrl where
  openq : Char
  secure : Bool
  body : List Char
  closeq : Char
deriving DecidableEq

/-- The scheme text of a quoted URL. -/
def scheme (b : Bool) : List Char :=
  if b then "https://".data else "http://".data

/-- The URL text of a quoted item (what the regex captures). -/
def urlOf (u : QUrl) : List Char := scheme u.secure ++ u.body

/-- The rendered source text of one quoted item. -/
def renderQ (u : QUrl) : List Char := u.openq :: (urlOf u ++ [u.closeq])

/-- The rendered source text of a list of items, each preceded by its junk
text (separators such as commas and spaces). -/
def renderItems : List (List Char × QUrl) → List Char
  | [] => []
  | (j, u) :: rest => j ++ (renderQ u ++ renderItems rest)

/-- Well-formedness of one item of an array block: the junk before it opens
no quote and closes no bracket, the quotes are from the classes the regex
accepts, and the URL body is nonempty and free of closing quotes and closing
brackets. -/
def WfItem (it : List Char × QUrl) : Prop :=
  (∀ c ∈ it.1, ¬(c = '"' ∨ c = '“' ∨ c = ']')) ∧
  (it.2.openq = '"' ∨ it.2.openq = '“') ∧
  (it.2.closeq = '"' ∨ it.2.closeq = '”') ∧
  it.2.body ≠ [] ∧
  (∀ c ∈ it.2.body, ¬(c = '"' ∨ c = '”' ∨ c = ']'))

instance (it : List Char × QUrl) : Decidable (WfItem it) := by
  unfold WfItem
  infer_instance

/-- Helper: the URL scanner skips a character that is not an opening quote. -/
lemma findUrls_cons_skip (c : Char) (cs : List Char)
    (h : ¬(c = '"' ∨ c = '“')) : findUrls (c :: cs) = findUrls cs := by
  have hb : (c == '"' || c == '“') = false := by
    simp only [Bool.or_eq_false_iff, beq_eq_false_iff_ne]
    push_neg at h
    exact ⟨h.1, h.2⟩
  show goUrls (cs.length + 1) (c :: cs) = findUrls cs
  simp only [goUrls, hb, Bool.false_eq_true, if_false]
  rfl

/-- Helper: the URL scanner skips any junk free of opening quotes. -/
lemma findUrls_skip_append (j rest : List Char)
    (hj : ∀ c ∈ j, ¬(c = '"' ∨ c = '“')) :
    findUrls (j ++ rest) = findUrls rest := by
  induction j with
  | nil => rfl
  | cons c j2 ih =>
    rw [List.cons_append,
      findUrls_cons_skip c (j2 ++ rest) (hj c (List.mem_cons_self c j2)),
      ih (fun c2 h2 => hj c2 (List.mem_cons_of_mem c h2))]

/-- Helper: text beginning with the seven characters of the http scheme never
matches the eight characters of the https scheme. -/
lemma take8_http_ne (b0 : Char) (x : List Char) :
    ("http://".data ++ (b0 :: x)).take 8 ≠ "https://".data := by
  intro h
  have h4 : (("http://".data ++ (b0 :: x)).take 8)[4]? = some ':' := rfl
  rw [h] at h4
  exact absurd h4 (by decide)

/-- Helper: takeWhile over a true-block followed by a failing character stops
exactly at the block. -/
lemma takeWhile_all_append (p : Char → Bool) :
    ∀ (l1 : List Char) (q : Char) (l2 : List Char),
      (∀ c ∈ l1, p c = true) → p q = false →
      (l1 ++ q :: l2).takeWhile p = l1 := by
  intro l1
  induction l1 with
  | nil =>
    intro q l2 _ hq
    simp [List.takeWhile_cons, hq]
  | cons a l ih =>
    intro q l2 h hq
    have ha : p a = true := h a (List.mem_cons_self a l)
    simp only [List.cons_append, List.takeWhile_cons, ha, if_true]
    rw [ih q l2 (fun c hc => h c (List.mem_cons_of_mem a hc)) hq]

/-- Helper: on a well-formed quoted URL the deterministic match attempt
captures exactly the scheme plus body and stops after the closing quote. -/
lemma matchUrl_spec (b : Bool) (body rest : List Char) (cq : Char)
    (hb : body ≠ [])
    (hbody : ∀ c ∈ body, ¬(c = '"' ∨ c = '”'))
    (hcq : cq = '"' ∨ cq = '”') :
    matchUrl (scheme b ++ body ++ cq :: rest) = some (scheme b ++ body, rest) := by
  have hp : ∀ c ∈ body, (!(c == '"' || c == '”')) = true := by
    intro c hc
    have h := hbody c hc
    push_neg at h
    have h1 : (c == '"') = false := beq_eq_false_iff_ne.mpr h.1
    have h2 : (c == '”') = false := beq_eq_false_iff_ne.mpr h.2
    simp [h1, h2]
  have hpq : (!(cq == '"' || cq == '”')) = false := by
    rcases hcq with h | h <;> subst h <;> decide
  have htw : urlBody (body ++ cq :: rest) = body := by
    unfold urlBody
    exact takeWhile_all_append _ body cq rest hp hpq
  have hdropb : (body ++ cq :: rest).drop body.length = cq :: rest :=
    List.drop_left body (cq :: rest)
  have hbe : body.isEmpty = false := by
    cases body with
    | nil => exact absurd rfl hb
    | cons a l => rfl
  cases b with
  | true =>
    have hassoc : scheme true ++ body ++ cq :: rest
        = "https://".data ++ (body ++ cq :: rest) := by
      simp [scheme, List.append_assoc]
    rw [hassoc]
    have h8 : ("https://".data ++ (body ++ cq :: rest)).take 8 = "https://".data := by
      have hl : ("https://".data).length = 8 := rfl
      conv_lhs => rw [← hl]
      exact List.take_left _ _
    have hd8 : ("https://".data ++ (body ++ cq :: rest)).drop 8
        = body ++ cq :: rest := by
      have hl : ("https://".data).length = 8 := rfl
      conv_lhs => rw [← hl]
      exact List.drop_left _ _
    simp only [matchUrl, h8, if_true, hd8, htw, hdropb, hbe, Bool.false_eq_true,
      if_false]
    simp [scheme]
  | false =>
    cases body with
    | nil => exact absurd rfl hb
    | cons b0 bs =>
      have hassoc : scheme false ++ (b0 :: bs) ++ cq :: rest
          = "http://".data ++ (b0 :: (bs ++ cq :: rest)) := by
        simp [scheme, List.append_assoc]
      rw [hassoc]
      have hne8 := take8_http_ne b0 (bs ++ cq :: rest)
      have h7 : ("http://".data ++ (b0 :: (bs ++ cq :: rest))).take 7
          = "http://".data := by
        have hl : ("http://".data).length = 7 := rfl
        conv_lhs => rw [← hl]
        exact List.take_left _ _
      have hd7 : ("http://".data ++ (b0 :: (bs ++ cq :: rest))).drop 7
          = b0 :: (bs ++ cq :: rest) := by
        have hl : ("http://".data).length = 7 := rfl
        conv_lhs => rw [← hl]
        exact List.drop_left _ _
      have htw2 : urlBody (b0 :: (bs ++ cq :: rest)) = b0 :: bs := by
        have h := htw
        simpa [List.cons_append] using h
      have hdropb2 : (b0 :: (bs ++ cq :: rest)).drop (b0 :: bs).length
          = cq :: rest := by
        have h := hdropb
        simpa [List.cons_append] using h
      have hbe2 : (b0 :: bs).isEmpty = false := rfl
      simp only [matchUrl, hne8, if_false, h7, if_true, hd7, htw2, hdropb2, hbe2,
        Bool.false_eq_true]
      simp [scheme]

/-- Helper: the URL scanner on a well-formed quoted URL emits its capture and
continues after the closing quote. -/
lemma findUrls_match (q : Char) (b : Bool) (body rest : List Char) (cq : Char)
    (hq : q = '"' ∨ q = '“')
    (hb : body ≠ [])
    (hbody : ∀ c ∈ body, ¬(c = '"' ∨ c = '”'))
    (hcq : cq = '"' ∨ cq = '”') :
    findUrls (q :: (scheme b ++ body ++ cq :: rest))
      = (scheme b ++ body) :: findUrls rest := by
  have hqb : (q == '"' || q == '“') = true := by
    rcases hq with h | h <;> subst h <;> decide
  have hm := matchUrl_spec b body rest cq hb hbody hcq
  show goUrls ((scheme b ++ body ++ cq :: rest).length + 1)
      (q :: (scheme b ++ body ++ cq :: rest))
    = (scheme b ++ body) :: findUrls rest
  simp only [goUrls, hqb, if_true, hm]
  congr 1
  apply goUrls_stable
  · simp only [List.length_append, List.length_cons]
    omega
  · exact Nat.le_refl _

/-- Helper: the URL scanner over a rendered well-formed array body followed
by quote-free tail text yields exactly the URLs of the items, in order. -/
lemma findUrls_render : ∀ (items : List (List Char × QUrl)) (tl : List Char),
    (∀ it ∈ items, WfItem it) →
    (∀ c ∈ tl, ¬(c = '"' ∨ c = '“')) →
    findUrls (renderItems items ++ tl) = items.map (fun it => urlOf it.2) := by
  intro items
  induction items with
  | nil =>
    intro tl _ ht
    have h := findUrls_skip_append tl [] ht
    simp only [List.append_nil] at h
    simpa [renderItems] using h
  | cons itm items ih =>
    intro tl hw ht
    obtain ⟨j, u⟩ := itm
    obtain ⟨hj, hoq, hcq, hbne, hbody⟩ := hw (j, u) (List.mem_cons_self _ _)
    rw [show renderItems ((j, u) :: items) = j ++ (renderQ u ++ renderItems items)
      from rfl]
    rw [List.append_assoc, List.append_assoc]
    rw [findUrls_skip_append j _
      (fun c hc hor => hj c hc (hor.elim Or.inl (fun h2 => Or.inr (Or.inl h2))))]
    have hshape : renderQ u ++ (renderItems items ++ tl)
        = u.openq :: (scheme u.secure ++ u.body
            ++ u.closeq :: (renderItems items ++ tl)) := by
      simp [renderQ, urlOf, List.append_assoc]
    rw [hshape, findUrls_match u.openq u.secure u.body _ u.closeq hoq hbne
      (fun c hc hor => hbody c hc (hor.elim Or.inl (fun h2 => Or.inr (Or.inl h2))))
      hcq]
    rw [ih tl (fun it hit => hw it (List.mem_cons_of_mem _ hit)) ht]
    simp [urlOf]

/-- Helper: no character of a rendered well-formed array body is a closing
bracket. -/
lemma renderItems_no_rb : ∀ (items : List (List Char × QUrl)),
    (∀ it ∈ items, WfItem it) →
    ∀ c ∈ renderItems items, ¬(c = ']') := by
  intro items
  induction items with
  | nil =>
    intro _ c hc
    simp [renderItems] at hc
  | cons itm items ih =>
    intro hw c hc
    obtain ⟨j, u⟩ := itm
    obtain ⟨hj, hoq, hcq, hbne, hbody⟩ := hw (j, u) (List.mem_cons_self _ _)
    rw [show renderItems ((j, u) :: items) = j ++ (renderQ u ++ renderItems items)
      from rfl] at hc
    simp only [List.mem_append] at hc
    rcases hc with hc | hc
    · exact fun he => hj c hc (Or.inr (Or.inr he))
    rcases hc with hc | hc
    · simp only [renderQ, urlOf, List.mem_cons, List.mem_append,
        List.mem_singleton] at hc
      rcases hc with hc | (hc | hc) | hc
      · subst hc
        intro he
        rcases hoq with h | h <;> rw [he] at h <;> exact absurd h (by decide)
      · intro he
        subst he
        cases hs : u.secure <;> rw [hs] at hc <;> revert hc <;> decide
      · exact fun he => hbody c hc (Or.inr (Or.inr he))
      · rcases hc with hc | hc
        · subst hc
          intro he
          rcases hcq with h | h <;> rw [he] at h <;> exact absurd h (by decide)
        · exact absurd hc (List.not_mem_nil c)
    · exact ih (fun it hit => hw it (List.mem_cons_of_mem _ hit)) c hc

/-- Helper: on a document consisting of a newline-free nonempty category line
followed by a bracketed array whose inside has no closing bracket, the block
match at the start of text captures the category line and the whole array and
consumes the entire document. -/
lemma tryBlock_single (cat arrTail : List Char)
    (hcat0 : cat ≠ [])
    (hcat1 : ∀ c ∈ cat, ¬(c = '\n'))
    (harr : ∀ c ∈ arrTail, ¬(c = ']')) :
    tryBlock (cat ++ '\n' :: ('[' :: (arrTail ++ [']'])))
      = some (cat, '[' :: (arrTail ++ [']']), []) := by
  have hline : (cat ++ '\n' :: ('[' :: (arrTail ++ [']']))).takeWhile
      (fun c => !(c == '\n')) = cat := by
    apply takeWhile_all_append
    · intro c hc
      have h2 : (c == '\n') = false := beq_eq_false_iff_ne.mpr (hcat1 c hc)
      simp [h2]
    · decide
  have hie : cat.isEmpty = false := by
    cases cat with
    | nil => exact absurd rfl hcat0
    | cons a l => rfl
  have hdrop : (cat ++ '\n' :: ('[' :: (arrTail ++ [']']))).drop cat.length
      = '\n' :: ('[' :: (arrTail ++ [']'])) := List.drop_left _ _
  have hws : (('\n' : Char) :: ('[' :: (arrTail ++ [']']))).takeWhile isWS
      = ['\n'] := by
    rw [List.takeWhile_cons]
    simp only [show isWS '\n' = true from rfl, if_true]
    rw [List.takeWhile_cons]
    simp only [show isWS '[' = false from rfl, Bool.false_eq_true, if_false]
  have htw : (arrTail ++ [']']).takeWhile (fun c => !(c == ']')) = arrTail := by
    show (arrTail ++ ']' :: []).takeWhile (fun c => !(c == ']')) = arrTail
    apply takeWhile_all_append
    · intro c hc
      have h2 : (c == ']') = false := beq_eq_false_iff_ne.mpr (harr c hc)
      simp [h2]
    · decide
  have hdrop2 : (arrTail ++ [']']).drop arrTail.length = [']'] :=
    List.drop_left arrTail [']']
  simp only [tryBlock, hline, hie, Bool.false_eq_true, if_false, hdrop, hws,
    List.length_cons, List.length_nil, List.drop_succ_cons, List.drop_zero,
    htw, hdrop2]

/-- Helper: the block scanner on a single well-formed block document finds
exactly that block. -/
lemma findBlocks_single (cat arrTail : List Char)
    (hcat0 : cat ≠ [])
    (hcat1 : ∀ c ∈ cat, ¬(c = '\n'))
    (harr : ∀ c ∈ arrTail, ¬(c = ']')) :
    findBlocks (cat ++ '\n' :: ('[' :: (arrTail ++ [']'])))
      = [(cat, '[' :: (arrTail ++ [']']))] := by
  cases cat with
  | nil => exact absurd rfl hcat0
  | cons c0 cs0 =>
    have hm : tryBlock (c0 :: (cs0 ++ '\n' :: ('[' :: (arrTail ++ [']']))))
        = some (c0 :: cs0, '[' :: (arrTail ++ [']']), []) := by
      have h := tryBlock_single (c0 :: cs0) arrTail hcat0 hcat1 harr
      simpa [List.cons_append] using h
    show goBlocks ((c0 :: cs0 ++ '\n' :: ('[' :: (arrTail ++ [']']))).length) true
        (c0 :: cs0 ++ '\n' :: ('[' :: (arrTail ++ [']']))) = _
    simp only [List.cons_append, List.length_cons, goBlocks, if_true,
      List.append_eq, hm, goBlocks_nil]

/-- Claim C7: for every well-formed category block (a newline-free nonempty
category line, then a bracketed array holding N quoted URLs with straight or
curly double quotes, http or https schemes and quote- and bracket-free
separators), the extractor maps that category to exactly those N URLs, in
their order of appearance. -/
theorem extractor_wellformed_block (cat : List Char)
    (items : List (List Char × QUrl)) (tl : List Char)
    (hcat0 : cat ≠ [])
    (hcat1 : ∀ c ∈ cat, ¬(c = '\n'))
    (hitems : ∀ it ∈ items, WfItem it)
    (htl : ∀ c ∈ tl, ¬(c = '"' ∨ c = '“' ∨ c = ']'))
    (hne : items ≠ []) :
    read_docx_data (cat ++ '\n' :: ('[' :: (renderItems items ++ tl ++ [']'])))
      = [(strip cat, items.map (fun it => urlOf it.2))] := by
  have harr : ∀ c ∈ renderItems items ++ tl, ¬(c = ']') := by
    intro c hc
    rcases List.mem_append.mp hc with hc | hc
    · exact renderItems_no_rb items hitems c hc
    · exact fun he => htl c hc (Or.inr (Or.inr he))
  have hfb := findBlocks_single cat (renderItems items ++ tl) hcat0 hcat1 harr
  unfold read_docx_data
  rw [hfb]
  have hurls : findUrls ('[' :: (renderItems items ++ tl ++ [']']))
      = items.map (fun it => urlOf it.2) := by
    rw [findUrls_cons_skip '[' _ (by decide), List.append_assoc]
    apply findUrls_render items (tl ++ [']']) hitems
    intro c hc
    rcases List.mem_append.mp hc with hc | hc
    · exact fun hor => htl c hc (hor.elim Or.inl (fun h2 => Or.inr (Or.inl h2)))
    · simp only [List.mem_singleton] at hc
      subst hc
      decide
  simp only [buildData, List.foldl_cons, List.foldl_nil, hurls]
  have hmne : (items.map (fun it => urlOf it.2)).isEmpty = false := by
    cases items with
    | nil => exact absurd rfl hne
    | cons a l => rfl
  simp only [hmne, Bool.false_eq_true, if_false]
  rfl

/-- Witness for extractor_wellformed_block: a two-URL Cats block. -/
theorem extractor_wellformed_block_witness :
    read_docx_data ("Cats".data ++ '\n' :: ('[' ::
        (renderItems [([], ⟨'"', true, "a".data, '"'⟩),
          (", ".data, ⟨'"', true, "b".data, '"'⟩)] ++ [] ++ [']'])))
      = [(strip "Cats".data,
          ([([], ⟨'"', true, "a".data, '"'⟩),
            (", ".data, ⟨'"', true, "b".data, '"'⟩)] :
              List (List Char × QUrl)).map (fun it => urlOf it.2))] :=
  extractor_wellformed_block "Cats".data
    [([], ⟨'"', true, "a".data, '"'⟩), (", ".data, ⟨'"', true, "b".data, '"'⟩)]
    [] (by decide) (by decide) (by decide) (by decide) (by decide)
